import Mathlib

/-!
Verification of the content-sanitization engine and the actor/permission
validation of the claude-code-action repository.

The sanitizer itself (`formatBody` / `formatComments` and the underlying
`sanitize` transform of `src/github/data/formatter.ts`) is not part of the
source tree available here (only its integration tests are), so it is
modelled from the specification: an ordered pipeline of stateless rules,
entity-decode, then invisible-character strip, then attribute strip
(HTML tag attributes, markdown image alt, markdown link title).

`checkHumanActor` (src/github/validation/actor.ts) and
`checkWritePermissions` (src/github/operations/branch.ts) are translated
directly from the source, with the platform API responses passed in as
explicit inputs and thrown errors represented by `Except`.
-/

namespace CCA

/-- Characters treated as whitespace by the tag / markdown scanners. -/
def isWsC (c : Char) : Bool := c == ' ' || c == '\t' || c == '\n' || c == '\r'

def notWsC (c : Char) : Bool := !(isWsC c)

def isDigitC (c : Char) : Bool := c.isDigit

def isHexDigitC (c : Char) : Bool :=
  c.isDigit || (decide (97 ≤ c.toNat) && decide (c.toNat ≤ 102))
    || (decide (65 ≤ c.toNat) && decide (c.toNat ≤ 70))

def hexDigitVal (c : Char) : Nat :=
  if c.isDigit then c.toNat - 48
  else if decide (97 ≤ c.toNat) then c.toNat - 87
  else c.toNat - 55

/-- Value of a big-endian list of decimal digit characters. -/
def decVal (ds : List Char) : Nat := ds.foldl (fun a c => 10 * a + (c.toNat - 48)) 0

/-- Value of a big-endian list of hexadecimal digit characters. -/
def hexVal (ds : List Char) : Nat := ds.foldl (fun a c => 16 * a + hexDigitVal c) 0

/-- Valid Unicode scalar values (excludes surrogates and out-of-range). -/
def isValidCp (n : Nat) : Bool :=
  decide (n < 55296) || (decide (57343 < n) && decide (n < 1114112))

/-- Modelled from the spec: the enumerated blocklist of invisible and
bidirectional-control code points stripped by the sanitizer (zero-width
space / non-joiner / joiner, soft hyphen, the bidirectional embedding,
override and pop characters, and the bidirectional isolate characters). -/
def blockedChars : List Char :=
  [Char.ofNat 0x200B, Char.ofNat 0x200C, Char.ofNat 0x200D, Char.ofNat 0xAD,
   Char.ofNat 0x202A, Char.ofNat 0x202B, Char.ofNat 0x202C, Char.ofNat 0x202D,
   Char.ofNat 0x202E, Char.ofNat 0x2066, Char.ofNat 0x2067, Char.ofNat 0x2068,
   Char.ofNat 0x2069]

def isBlockedChar (c : Char) : Bool := blockedChars.contains c

def notBlockedC (c : Char) : Bool := !(isBlockedChar c)

/-- One pass of a single rewrite rule over a character list.  At each
position the rule `step` either fires, returning the replacement text and
the number of additional characters (beyond the first) it consumed, or
does not fire, in which case the character is copied.  The `Nat` argument
is the number of characters still to skip because an earlier firing
consumed them. -/
def scanAux (step : List Char → Option (List Char × Nat)) : Nat → List Char → List Char
  | _, [] => []
  | n + 1, _ :: cs => scanAux step n cs
  | 0, c :: cs =>
    match step (c :: cs) with
    | some (out, k) => out ++ scanAux step k cs
    | none => c :: scanAux step 0 cs

/-- Modelled from the spec: decoding of a decimal numeric character
reference `&#NN;`.  `l` is the whole text at the current position and
`rest` the part after the `&#`. -/
def entityStepDec (l rest : List Char) : Option (List Char × Nat) :=
  let ds := rest.takeWhile isDigitC
  if ds.isEmpty then none
  else
    match rest.dropWhile isDigitC with
    | ';' :: tail =>
      let n := decVal ds
      if isValidCp n then some ([Char.ofNat n], l.length - tail.length - 1) else none
    | _ => none

/-- Modelled from the spec: decoding of a hexadecimal numeric character
reference `&#xHH;`. -/
def entityStepHex (l rest : List Char) : Option (List Char × Nat) :=
  let ds := rest.takeWhile isHexDigitC
  if ds.isEmpty then none
  else
    match rest.dropWhile isHexDigitC with
    | ';' :: tail =>
      let n := hexVal ds
      if isValidCp n then some ([Char.ofNat n], l.length - tail.length - 1) else none
    | _ => none

/-- Modelled from the spec: the entity-decoding rule.  A numeric HTML
character reference is replaced by its literal code point; the decoded
character is substituted directly and never re-interpreted. -/
def entityStep (l : List Char) : Option (List Char × Nat) :=
  match l with
  | '&' :: '#' :: 'x' :: rest => entityStepHex l rest
  | '&' :: '#' :: 'X' :: rest => entityStepHex l rest
  | '&' :: '#' :: rest => entityStepDec l rest
  | _ => none

/-- Stage 1 of the sanitizer: decode numeric character references. -/
def decodeEntities (l : List Char) : List Char := scanAux entityStep 0 l

/-- Stage 2 of the sanitizer: remove every blocklisted invisible /
bidirectional-control code point, leaving adjacent characters directly
adjacent. -/
def stripInvisible (l : List Char) : List Char := l.filter notBlockedC

def isTagNameC (c : Char) : Bool := c.isAlphanum

def isAttrNameC (c : Char) : Bool := c.isAlphanum || c == '-' || c == '_' || c == ':'

/-- Characters allowed inside a double-quoted attribute value. -/
def isValueC (c : Char) : Bool := !(c == '"' || c == '<' || c == '>')

/-- One attribute occurrence inside a tag: `text` is the verbatim source
text of the attribute including its leading whitespace, `name` the
attribute name. -/
structure AttrChunk where
  text : List Char
  name : List Char
deriving DecidableEq

/-- Concatenated verbatim text of a list of attribute chunks. -/
def chunkTexts : List AttrChunk → List Char
  | [] => []
  | ch :: rest => ch.text ++ chunkTexts rest

/-- Recognizes a leading `>`, returning the remaining text. -/
def gtTest : List Char → Option (List Char)
  | '>' :: rest => some rest
  | _ => none

/-- Recognizes a leading `="`, returning the remaining text. -/
def eqQuoteTest : List Char → Option (List Char)
  | '=' :: '"' :: rest => some rest
  | _ => none

/-- Modelled from the spec: parse one attribute occurrence (either a bare
name or `name="value"` with a double-quoted value containing no quote or
angle bracket).  Returns the verbatim attribute text, the attribute name,
and the remaining text. -/
def parseOneAttr (r : List Char) : Option (List Char × List Char × List Char) :=
  let nm := r.takeWhile isAttrNameC
  if nm.isEmpty then none
  else
    let r2 := r.dropWhile isAttrNameC
    match eqQuoteTest r2 with
    | some r3 =>
      let v := r3.takeWhile isValueC
      match r3.dropWhile isValueC with
      | '"' :: r4 => some (nm ++ '=' :: '"' :: (v ++ ['"']), nm, r4)
      | _ => none
    | none => some (nm, nm, r2)

/-- Modelled from the spec: parse the attribute list of a tag up to and
including the closing `>`.  Returns the attribute chunks, the trailing
whitespace before `>`, and the remaining text after `>`.  Each attribute
must be preceded by whitespace. -/
def parseAttrs : Nat → List Char → Option (List AttrChunk × List Char × List Char)
  | 0, _ => none
  | fuel + 1, l =>
    let ws := l.takeWhile isWsC
    let r := l.dropWhile isWsC
    match gtTest r with
    | some rest => some ([], ws, rest)
    | none =>
      if ws.isEmpty then none
      else
        match parseOneAttr r with
        | some (txt, nm, r2) =>
          match parseAttrs fuel r2 with
          | some (chunks, tws, rest) => some (⟨ws ++ txt, nm⟩ :: chunks, tws, rest)
          | none => none
        | none => none

/-- Result of parsing one HTML tag occurrence: tag name, attribute
chunks, trailing whitespace before `>`, and the text after the tag. -/
structure TagParse where
  name : List Char
  chunks : List AttrChunk
  trailWs : List Char
  rest : List Char
deriving DecidableEq

/-- Modelled from the spec: parse a single well-formed HTML tag starting
at the current position (`<`, an alphanumeric name starting with a
letter, an attribute list, `>`). -/
def parseTag (l : List Char) : Option TagParse :=
  match l with
  | '<' :: rest =>
    match rest.takeWhile isTagNameC with
    | [] => none
    | c0 :: nmTail =>
      if c0.isAlpha then
        match parseAttrs (rest.length + 1) (rest.dropWhile isTagNameC) with
        | some (chunks, tws, rest2) => some ⟨c0 :: nmTail, chunks, tws, rest2⟩
        | none => none
      else none
  | _ => none

/-- Modelled from the spec: the attribute blocklist.  `title`,
`aria-label`, `placeholder` and any `data-*` attribute are removed on
every tag; `alt` is removed on `img` tags. -/
def blockedAttrName (tag nm : List Char) : Bool :=
  decide (nm = ("title").data) || decide (nm = ("aria-label").data)
    || decide (nm = ("placeholder").data) || decide (nm.take 5 = ("data-").data)
    || (decide (tag = ("img").data) && decide (nm = ("alt").data))

/-- Modelled from the spec: the tag attribute-stripping rule.  It fires
only when a well-formed tag carries at least one blocklisted attribute;
the blocklisted attributes are deleted, the others kept verbatim, and a
tag whose attribute list becomes empty is rendered with no attribute list
at all. -/
def tagStep (l : List Char) : Option (List Char × Nat) :=
  match parseTag l with
  | none => none
  | some p =>
    let kept := p.chunks.filter (fun ch => !(blockedAttrName p.name ch.name))
    if kept.length = p.chunks.length then none
    else
      some ('<' :: p.name ++ chunkTexts kept
              ++ (if kept.isEmpty then [] else p.trailWs) ++ ['>'],
            l.length - p.rest.length - 1)

def notRBracketC (c : Char) : Bool := !(c == ']')

def notRParenC (c : Char) : Bool := !(c == ')')

def notQuoteC (c : Char) : Bool := !(c == '"')

/-- Modelled from the spec: the markdown image alt-removal rule.
`![alt](` with a nonempty alt becomes `![](`. -/
def mdImageStep (l : List Char) : Option (List Char × Nat) :=
  match l with
  | '!' :: '[' :: rest =>
    let alt := rest.takeWhile notRBracketC
    if alt.isEmpty then none
    else
      match rest.dropWhile notRBracketC with
      | ']' :: '(' :: r2 => some (['!', '[', ']', '('], l.length - r2.length - 1)
      | _ => none
  | _ => none

/-- The url part of a markdown link target: everything before the first
whitespace. -/
def linkUrl (inner : List Char) : List Char := inner.takeWhile notWsC

/-- Whether a markdown link target carries a quoted title after the url:
whitespace, a double-quoted string, then only trailing whitespace. -/
def hasTitle (inner : List Char) : Bool :=
  match (inner.dropWhile notWsC).dropWhile isWsC with
  | '"' :: t =>
    match t.dropWhile notQuoteC with
    | '"' :: rest2 => rest2.all isWsC
    | _ => false
  | _ => false

/-- Modelled from the spec: the markdown link title-removal rule.
`[text](url "title")` becomes `[text](url)`; the rule fires only when a
title portion is present. -/
def mdLinkStep (l : List Char) : Option (List Char × Nat) :=
  match l with
  | '[' :: rest =>
    let txt := rest.takeWhile notRBracketC
    match rest.dropWhile notRBracketC with
    | ']' :: '(' :: r2 =>
      let inner := r2.takeWhile notRParenC
      match r2.dropWhile notRParenC with
      | ')' :: tail =>
        if hasTitle inner then
          some ('[' :: txt ++ ']' :: '(' :: linkUrl inner ++ [')'],
                l.length - tail.length - 1)
        else none
      | _ => none
    | _ => none
  | _ => none

/-- Stage 3a of the sanitizer: strip blocklisted attributes from tags. -/
def stripTagAttributes (l : List Char) : List Char := scanAux tagStep 0 l

/-- Stage 3b of the sanitizer: remove markdown image alt text. -/
def stripImageAlt (l : List Char) : List Char := scanAux mdImageStep 0 l

/-- Stage 3c of the sanitizer: remove markdown link titles. -/
def stripLinkTitle (l : List Char) : List Char := scanAux mdLinkStep 0 l

/-- Modelled from the spec: the full sanitizer pipeline, in the order the
spec requires (entity decoding, then invisible-character stripping, then
attribute stripping). -/
def sanitize (l : List Char) : List Char :=
  stripLinkTitle (stripImageAlt (stripTagAttributes (stripInvisible (decodeEntities l))))

/-- The sanitizer on strings. -/
def sanitizeText (s : String) : String := String.mk (sanitize s.data)

/-- All suffixes of a character list, longest first, including the list
itself and the empty suffix. -/
def suffixes : List Char → List (List Char)
  | [] => [[]]
  | c :: cs => (c :: cs) :: suffixes cs

/-- A rewrite rule fires nowhere in `l`. -/
def ruleFree (step : List Char → Option (List Char × Nat)) (l : List Char) : Bool :=
  (suffixes l).all (fun t => (step t).isNone)

/-- A text contains no construct targeted by the sanitizer: no numeric
character reference, no blocklisted code point, no tag with a blocklisted
attribute, no markdown image alt, no markdown link title. -/
def noTargets (l : List Char) : Bool :=
  ruleFree entityStep l && l.all notBlockedC && ruleFree tagStep l
    && ruleFree mdImageStep l && ruleFree mdLinkStep l

/-- A numeric-entity-encoded form of a blocklisted character occurs in
the text: at some position the entity rule fires and decodes to a
blocklisted code point. -/
def entityEncodedBlockedPresent (l : List Char) : Bool :=
  (suffixes l).any (fun t =>
    match entityStep t with
    | some (out, _) => out.any isBlockedChar
    | none => false)

/-- Modelled from the spec: a platform comment record. -/
structure GitHubComment where
  id : String
  databaseId : String
  author : String
  createdAt : String
  body : String
deriving DecidableEq

/-- Modelled from the spec: a formatted comment record (author,
timestamp, cleaned body). -/
structure FormattedComment where
  author : String
  createdAt : String
  body : String
deriving DecidableEq

/-- Modelled from the spec: formatting of a single comment, sanitizing
its body. -/
def formatComment (c : GitHubComment) : FormattedComment :=
  ⟨c.author, c.createdAt, sanitizeText c.body⟩

/-- Modelled from the spec: `formatComments` sanitizes every comment body
and produces one formatted record per comment, in thread order. -/
def formatComments (cs : List GitHubComment) : List FormattedComment :=
  cs.map formatComment

/-- Modelled from the spec: `formatBody` sanitizes the body and then
rewrites image references using the supplied image URL map. -/
def formatBody (body : String) (imageUrlMap : List (String × String)) : String :=
  imageUrlMap.foldl (fun acc kv => acc.replace kv.1 kv.2) (sanitizeText body)

/-- JavaScript `String.prototype.trim`: remove leading and trailing
whitespace. -/
def trimChars (l : List Char) : List Char :=
  ((l.dropWhile isWsC).reverse.dropWhile isWsC).reverse

/-- JavaScript `String.prototype.trim` on strings. -/
def strTrim (s : String) : String := String.mk (trimChars s.data)

/-- JavaScript `String.prototype.toLowerCase` (over the ASCII range the
action compares). -/
def strToLower (s : String) : String := String.mk (s.data.map Char.toLower)

/-- JavaScript `String.prototype.split(",")`: split at every comma; the
empty string yields one empty entry. -/
def splitComma : List Char → List (List Char)
  | [] => [[]]
  | ',' :: rest => [] :: splitComma rest
  | c :: rest =>
    match splitComma rest with
    | h :: t => (c :: h) :: t
    | [] => [[c]]

/-- Translated from src/src/github/validation/actor.ts: the parsing of
the `allowed_bots` input into a list of comma-separated, trimmed,
lowercased, non-empty entries. -/
def parseAllowedBots (allowedBots : String) : List String :=
  ((splitComma allowedBots.data).map
      (fun b => String.mk ((trimChars b).map Char.toLower))).filter
    (fun b => b.length > 0)

/-- Translated from src/src/github/validation/actor.ts
(`checkHumanActor`, allowedBots variant).  The platform-reported user
type of the actor is passed in as `actorType`; a thrown error is
represented by `Except.error`. -/
def checkHumanActor (actorType actor allowedBots : String) : Except String Unit :=
  if actorType ≠ "User" then
    let allowedBotsList := parseAllowedBots allowedBots
    if strTrim allowedBots = "*" then Except.ok ()
    else if allowedBotsList.contains (strToLower actor) then Except.ok ()
    else Except.error ("Workflow initiated by non-human actor: " ++ actor
      ++ " (type: " ++ actorType
      ++ "). Add bot to allowed_bots list or use * to allow all bots.")
  else Except.ok ()

/-- JavaScript `String.prototype.endsWith`. -/
def strEndsWith (s suffixStr : String) : Bool := suffixStr.data.isSuffixOf s.data

/-- Translated from src/src/github/operations/branch.ts
(`checkWritePermissions`).  The outcome of the GitHub App permission
check (for `[bot]` actors) and of the collaborator permission lookup are
passed in as explicit `Except` inputs; a thrown error is represented by
`Except.error`, and the catch-all handler rewraps any error. -/
def checkWritePermissions (actor : String)
    (botPermissionsCheck : Except String Unit)
    (collaboratorPermission : Except String String) : Except String Bool :=
  if strEndsWith actor "[bot]" then
    match botPermissionsCheck with
    | Except.ok _ => Except.ok true
    | Except.error e =>
      Except.error ("Failed to check permissions for " ++ actor ++ ": " ++ e)
  else
    match collaboratorPermission with
    | Except.ok permissionLevel =>
      if permissionLevel = "admin" ∨ permissionLevel = "write" then Except.ok true
      else Except.ok false
    | Except.error e =>
      Except.error ("Failed to check permissions for " ++ actor ++ ": " ++ e)

theorem suffixes_cons (c : Char) (cs : List Char) :
    suffixes (c :: cs) = (c :: cs) :: suffixes cs := rfl

theorem suffixes_subset {t l : List Char} (h : t ∈ suffixes l) : t ⊆ l := by
  induction l with
  | nil =>
    simp [suffixes] at h
    subst h
    exact fun x hx => hx
  | cons c cs ih =>
    rw [suffixes_cons, List.mem_cons] at h
    rcases h with h | h
    · subst h; exact fun x hx => hx
    · exact fun x hx => List.mem_cons_of_mem _ (ih h hx)

theorem ruleFree_iff {step : List Char → Option (List Char × Nat)} {l : List Char} :
    ruleFree step l = true ↔ ∀ t ∈ suffixes l, step t = none := by
  simp [ruleFree, List.all_eq_true, Option.isNone_iff_eq_none]

/-- A scan is the identity when its rule fires at no position. -/
theorem scanAux_id {step : List Char → Option (List Char × Nat)} {l : List Char}
    (h : ∀ t ∈ suffixes l, step t = none) : scanAux step 0 l = l := by
  induction l with
  | nil => rfl
  | cons c cs ih =>
    have h1 : step (c :: cs) = none := h _ (by rw [suffixes_cons]; exact List.mem_cons_self _ _)
    have h2 : ∀ t ∈ suffixes cs, step t = none := fun t ht =>
      h t (by rw [suffixes_cons]; exact List.mem_cons_of_mem _ ht)
    simp [scanAux, h1, ih h2]

/-- A scan never lengthens the text, provided each firing emits at most
as many characters as it consumed. -/
theorem scanAux_length {step : List Char → Option (List Char × Nat)}
    (hstep : ∀ t out k, step t = some (out, k) → out.length ≤ k + 1 ∧ out.length ≤ t.length) :
    ∀ (l : List Char) (n : Nat), (scanAux step n l).length ≤ l.length - n := by
  intro l
  induction l with
  | nil => intro n; simp [scanAux]
  | cons c cs ih =>
    intro n
    match n with
    | n' + 1 =>
      have h := ih n'
      simp only [scanAux]
      simp only [List.length_cons]
      omega
    | 0 =>
      rcases hs : step (c :: cs) with _ | ⟨out, k⟩
      · have h := ih 0
        simp [scanAux, hs]
        omega
      · have hb := hstep _ _ _ hs
        have hr := ih k
        simp only [List.length_cons] at hb
        simp [scanAux, hs]
        omega

/-- A scan emits only characters of its input, provided each firing does. -/
theorem scanAux_subset {step : List Char → Option (List Char × Nat)}
    (hstep : ∀ t out k, step t = some (out, k) → ∀ c, c ∈ out → c ∈ t) :
    ∀ (l : List Char) (n : Nat) (c : Char), c ∈ scanAux step n l → c ∈ l := by
  intro l
  induction l with
  | nil => intro n c h; simp [scanAux] at h
  | cons a cs ih =>
    intro n c h
    match n with
    | n' + 1 =>
      simp only [scanAux] at h
      exact List.mem_cons_of_mem _ (ih n' c h)
    | 0 =>
      rcases hs : step (a :: cs) with _ | ⟨out, k⟩
      · simp [scanAux, hs] at h
        rcases h with h | h
        · exact h ▸ List.mem_cons_self _ _
        · exact List.mem_cons_of_mem _ (ih 0 c h)
      · simp [scanAux, hs] at h
        rcases h with h | h
        · exact hstep _ _ _ hs c h
        · exact List.mem_cons_of_mem _ (ih k c h)

theorem entityStepDec_out {l rest out : List Char} {k : Nat}
    (h : entityStepDec l rest = some (out, k)) : out.length = 1 := by
  simp only [entityStepDec] at h
  split at h
  · simp at h
  · split at h
    · split at h
      · simp only [Option.some.injEq, Prod.mk.injEq] at h
        rw [← h.1]
        rfl
      · simp at h
    · simp at h

theorem entityStepHex_out {l rest out : List Char} {k : Nat}
    (h : entityStepHex l rest = some (out, k)) : out.length = 1 := by
  simp only [entityStepHex] at h
  split at h
  · simp at h
  · split at h
    · split at h
      · simp only [Option.some.injEq, Prod.mk.injEq] at h
        rw [← h.1]
        rfl
      · simp at h
    · simp at h

theorem entityStep_bounds {t out : List Char} {k : Nat}
    (h : entityStep t = some (out, k)) : out.length ≤ k + 1 ∧ out.length ≤ t.length := by
  have h1 : out.length = 1 := by
    unfold entityStep at h
    split at h
    · exact entityStepHex_out h
    · exact entityStepHex_out h
    · exact entityStepDec_out h
    · simp at h
  have h2 : t ≠ [] := by
    intro he
    subst he
    simp [entityStep] at h
  have h3 : 0 < t.length := List.length_pos.mpr h2
  omega

theorem entityStep_amp {t out : List Char} {k : Nat}
    (h : entityStep t = some (out, k)) : '&' ∈ t := by
  unfold entityStep at h
  split at h <;> simp_all

theorem gtTest_some {r rest : List Char} (h : gtTest r = some rest) : r = '>' :: rest := by
  unfold gtTest at h
  split at h <;> simp_all

theorem eqQuoteTest_some {r rest : List Char} (h : eqQuoteTest r = some rest) :
    r = '=' :: '"' :: rest := by
  unfold eqQuoteTest at h
  split at h <;> simp_all

/-- The one-attribute parser is lossless: the attribute text followed by
the remainder reconstructs the input. -/
theorem parseOneAttr_recon {r txt nm r2 : List Char}
    (h : parseOneAttr r = some (txt, nm, r2)) : txt ++ r2 = r := by
  simp only [parseOneAttr] at h
  split at h
  · simp at h
  · split at h
    next r3 heq =>
      split at h
      next r4 heq2 =>
        simp only [Option.some.injEq, Prod.mk.injEq] at h
        obtain ⟨h1, _, h3⟩ := h
        subst h1; subst h3
        have e1 : r.takeWhile isAttrNameC ++ '=' :: '"' :: r3 = r := by
          conv_rhs => rw [← List.takeWhile_append_dropWhile (p := isAttrNameC) (l := r)]
          rw [eqQuoteTest_some heq]
        have e2 : r3.takeWhile isValueC ++ '"' :: r4 = r3 := by
          conv_rhs => rw [← List.takeWhile_append_dropWhile (p := isValueC) (l := r3)]
          rw [heq2]
        conv_rhs => rw [← e1, ← e2]
        simp [List.append_assoc]
      · simp at h
    next heq =>
      simp only [Option.some.injEq, Prod.mk.injEq] at h
      obtain ⟨h1, _, h3⟩ := h
      subst h1; subst h3
      exact List.takeWhile_append_dropWhile _ _

/-- The attribute-list parser is lossless: the chunk texts, the trailing
whitespace, the `>` and the remainder reconstruct the input. -/
theorem parseAttrs_recon :
    ∀ (fuel : Nat) (l : List Char) (chunks : List AttrChunk) (tws rest : List Char),
      parseAttrs fuel l = some (chunks, tws, rest) →
      chunkTexts chunks ++ tws ++ '>' :: rest = l := by
  intro fuel
  induction fuel with
  | zero => intro l chunks tws rest h; simp [parseAttrs] at h
  | succ fuel ih =>
    intro l chunks tws rest h
    simp only [parseAttrs] at h
    split at h
    next rest' heq =>
      simp only [Option.some.injEq, Prod.mk.injEq] at h
      obtain ⟨h1, h2, h3⟩ := h
      subst h1; subst h2; subst h3
      have e1 : l.takeWhile isWsC ++ l.dropWhile isWsC = l :=
        List.takeWhile_append_dropWhile _ _
      rw [gtTest_some heq] at e1
      simpa [chunkTexts] using e1
    next heq =>
      split at h
      · simp at h
      · split at h
        next txt nm r2 heq2 =>
          split at h
          next chunks' tws' rest'' heq3 =>
            simp only [Option.some.injEq, Prod.mk.injEq] at h
            obtain ⟨h1, h2, h3⟩ := h
            subst h1; subst h2; subst h3
            have e1 : l.takeWhile isWsC ++ l.dropWhile isWsC = l :=
              List.takeWhile_append_dropWhile _ _
            have e2 : txt ++ r2 = l.dropWhile isWsC := parseOneAttr_recon heq2
            have e3 : chunkTexts chunks' ++ tws' ++ '>' :: rest'' = r2 := ih _ _ _ _ heq3
            conv_rhs => rw [← e1, ← e2, ← e3]
            simp [chunkTexts, List.append_assoc]
          · simp at h
        · simp at h

/-- The tag parser is lossless: name, attribute chunks, trailing
whitespace, `>` and remainder reconstruct the input. -/
theorem parseTag_recon {l : List Char} {p : TagParse} (h : parseTag l = some p) :
    '<' :: (p.name ++ (chunkTexts p.chunks ++ (p.trailWs ++ '>' :: p.rest))) = l := by
  unfold parseTag at h
  split at h
  next rest =>
    split at h
    · simp at h
    next c0 nmTail heq =>
      split at h
      · split at h
        next chunks tws rest2 heq2 =>
          simp only [Option.some.injEq] at h
          subst h
          have e1 : rest.takeWhile isTagNameC ++ rest.dropWhile isTagNameC = rest :=
            List.takeWhile_append_dropWhile _ _
          have e2 : chunkTexts chunks ++ tws ++ '>' :: rest2 =
              rest.dropWhile isTagNameC := parseAttrs_recon _ _ _ _ _ heq2
          conv_rhs => rw [← e1, heq, ← e2]
          simp [List.append_assoc]
        · simp at h
      · simp at h
  · simp at h

theorem parseTag_length {l : List Char} {p : TagParse} (h : parseTag l = some p) :
    l.length = p.name.length + (chunkTexts p.chunks).length + p.trailWs.length
      + p.rest.length + 2 := by
  have h2 := congrArg List.length (parseTag_recon h)
  simp at h2
  omega

theorem chunkTexts_filter_length (pr : AttrChunk → Bool) (chs : List AttrChunk) :
    (chunkTexts (chs.filter pr)).length ≤ (chunkTexts chs).length := by
  induction chs with
  | nil => simp [chunkTexts]
  | cons ch rest ih =>
    by_cases hpr : pr ch
    · simp [chunkTexts, List.filter_cons, hpr]
      omega
    · simp only [List.filter_cons, hpr, Bool.false_eq_true, if_false, chunkTexts]
      simp [chunkTexts]
      omega

theorem chunkTexts_filter_subset (pr : AttrChunk → Bool) (chs : List AttrChunk)
    (c : Char) (h : c ∈ chunkTexts (chs.filter pr)) : c ∈ chunkTexts chs := by
  induction chs with
  | nil => simp [chunkTexts] at h
  | cons ch rest ih =>
    simp only [chunkTexts, List.mem_append]
    by_cases hpr : pr ch
    · simp only [List.filter_cons, hpr, if_true, chunkTexts, List.mem_append] at h
      rcases h with h | h
      · exact Or.inl h
      · exact Or.inr (ih h)
    · simp only [List.filter_cons, hpr, Bool.false_eq_true, if_false] at h
      exact Or.inr (ih h)

theorem tagStep_bounds {t out : List Char} {k : Nat}
    (h : tagStep t = some (out, k)) : out.length ≤ k + 1 ∧ out.length ≤ t.length := by
  simp only [tagStep] at h
  split at h
  · simp at h
  next p heq =>
    split at h
    · simp at h
    · simp only [Option.some.injEq, Prod.mk.injEq] at h
      obtain ⟨h1, h2⟩ := h
      subst h1; subst h2
      have hlen := parseTag_length heq
      have hkept := chunkTexts_filter_length
        (fun ch => !(blockedAttrName p.name ch.name)) p.chunks
      have hws : (if (p.chunks.filter
          (fun ch => !(blockedAttrName p.name ch.name))).isEmpty then ([] : List Char)
          else p.trailWs).length ≤ p.trailWs.length := by
        split <;> simp
      simp only [List.length_cons, List.length_append, List.length_nil,
        List.length_singleton]
      omega

theorem tagStep_lt {t out : List Char} {k : Nat}
    (h : tagStep t = some (out, k)) : '<' ∈ t := by
  unfold tagStep at h
  split at h
  · simp at h
  next p heq =>
    rw [← parseTag_recon heq]
    simp

theorem tagStep_subset {t out : List Char} {k : Nat}
    (h : tagStep t = some (out, k)) : ∀ c, c ∈ out → c ∈ t := by
  simp only [tagStep] at h
  split at h
  · simp at h
  next p heq =>
    split at h
    · simp at h
    · simp only [Option.some.injEq, Prod.mk.injEq] at h
      obtain ⟨h1, _⟩ := h
      subst h1
      intro c hc
      rw [← parseTag_recon heq]
      simp only [List.mem_cons, List.mem_append, List.not_mem_nil, or_false] at hc ⊢
      rcases hc with (((hc | hc) | hc) | hc) | hc
      · exact Or.inl hc
      · exact Or.inr (Or.inl hc)
      · exact Or.inr (Or.inr (Or.inl (chunkTexts_filter_subset _ _ _ hc)))
      · have hws : c ∈ p.trailWs := by
          split at hc
          · simp at hc
          · exact hc
        exact Or.inr (Or.inr (Or.inr (Or.inl hws)))
      · exact Or.inr (Or.inr (Or.inr (Or.inr (Or.inl hc))))

theorem mdImageStep_bounds {t out : List Char} {k : Nat}
    (h : mdImageStep t = some (out, k)) : out.length ≤ k + 1 ∧ out.length ≤ t.length := by
  simp only [mdImageStep] at h
  split at h
  next rest =>
    split at h
    · simp at h
    · split at h
      next r2 heq =>
        simp only [Option.some.injEq, Prod.mk.injEq] at h
        obtain ⟨h1, h2⟩ := h
        subst h1; subst h2
        have e1 : rest.takeWhile notRBracketC ++ rest.dropWhile notRBracketC = rest :=
          List.takeWhile_append_dropWhile _ _
        have e2 := congrArg List.length e1
        rw [heq] at e2
        simp at e2 ⊢
        omega
      · simp at h
  · simp at h

theorem mdImageStep_subset {t out : List Char} {k : Nat}
    (h : mdImageStep t = some (out, k)) : ∀ c, c ∈ out → c ∈ t := by
  simp only [mdImageStep] at h
  split at h
  next rest =>
    split at h
    · simp at h
    · split at h
      next r2 heq =>
        simp only [Option.some.injEq, Prod.mk.injEq] at h
        obtain ⟨h1, _⟩ := h
        subst h1
        intro c hc
        have e1 : rest.takeWhile notRBracketC ++ rest.dropWhile notRBracketC = rest :=
          List.takeWhile_append_dropWhile _ _
        rw [heq] at e1
        simp only [List.mem_cons, List.not_mem_nil, or_false] at hc
        rcases hc with hc | hc | hc | hc
        · simp [hc]
        · simp [hc]
        · subst hc
          refine List.mem_cons_of_mem _ (List.mem_cons_of_mem _ ?_)
          rw [← e1]
          simp
        · subst hc
          refine List.mem_cons_of_mem _ (List.mem_cons_of_mem _ ?_)
          rw [← e1]
          simp
      · simp at h
  · simp at h

theorem mdImageStep_bracket {t out : List Char} {k : Nat}
    (h : mdImageStep t = some (out, k)) : '[' ∈ t := by
  unfold mdImageStep at h
  split at h <;> simp_all

theorem mdLinkStep_bounds {t out : List Char} {k : Nat}
    (h : mdLinkStep t = some (out, k)) : out.length ≤ k + 1 ∧ out.length ≤ t.length := by
  simp only [mdLinkStep] at h
  split at h
  next rest =>
    split at h
    next r2 heq =>
      split at h
      next tail heq2 =>
        split at h
        · simp only [Option.some.injEq, Prod.mk.injEq] at h
          obtain ⟨h1, h2⟩ := h
          subst h1; subst h2
          have e1 : rest.takeWhile notRBracketC ++ rest.dropWhile notRBracketC = rest :=
            List.takeWhile_append_dropWhile _ _
          have e2 : r2.takeWhile notRParenC ++ r2.dropWhile notRParenC = r2 :=
            List.takeWhile_append_dropWhile _ _
          have e1l := congrArg List.length e1
          have e2l := congrArg List.length e2
          rw [heq] at e1l
          rw [heq2] at e2l
          have hurl : (linkUrl (r2.takeWhile notRParenC)).length ≤
              (r2.takeWhile notRParenC).length :=
            (List.takeWhile_sublist _).length_le
          simp at e1l e2l ⊢
          omega
        · simp at h
      · simp at h
    · simp at h
  · simp at h

theorem mdLinkStep_subset {t out : List Char} {k : Nat}
    (h : mdLinkStep t = some (out, k)) : ∀ c, c ∈ out → c ∈ t := by
  simp only [mdLinkStep] at h
  split at h
  next rest =>
    split at h
    next r2 heq =>
      split at h
      next tail heq2 =>
        split at h
        · simp only [Option.some.injEq, Prod.mk.injEq] at h
          obtain ⟨h1, _⟩ := h
          subst h1
          intro c hc
          have e1 : rest.takeWhile notRBracketC ++ rest.dropWhile notRBracketC = rest :=
            List.takeWhile_append_dropWhile _ _
          have e2 : r2.takeWhile notRParenC ++ r2.dropWhile notRParenC = r2 :=
            List.takeWhile_append_dropWhile _ _
          rw [heq] at e1
          rw [heq2] at e2
          simp only [List.mem_cons, List.mem_append, List.not_mem_nil, or_false] at hc
          rcases hc with ((hc | hc) | hc | hc | hc) | hc
          · simp [hc]
          · refine List.mem_cons_of_mem _ ?_
            rw [← e1]
            exact List.mem_append_left _ hc
          · refine List.mem_cons_of_mem _ ?_
            rw [← e1]
            simp [hc]
          · refine List.mem_cons_of_mem _ ?_
            rw [← e1]
            simp [hc]
          · have hin : c ∈ r2.takeWhile notRParenC :=
              (List.takeWhile_sublist _).subset hc
            have hin2 : c ∈ r2 := by
              rw [← e2]
              exact List.mem_append_left _ hin
            refine List.mem_cons_of_mem _ ?_
            rw [← e1]
            simp [hin2]
          · subst hc
            have hin2 : ')' ∈ r2 := by
              rw [← e2]
              simp
            refine List.mem_cons_of_mem _ ?_
            rw [← e1]
            simp [hin2]
        · simp at h
      · simp at h
    · simp at h
  · simp at h

theorem mdLinkStep_bracket {t out : List Char} {k : Nat}
    (h : mdLinkStep t = some (out, k)) : '[' ∈ t := by
  unfold mdLinkStep at h
  split at h <;> simp_all

/-- A scan whose rule needs a character absent from the text is the
identity. -/
theorem scan_id_of_not_mem {step : List Char → Option (List Char × Nat)} {ch : Char}
    (hstep : ∀ t out k, step t = some (out, k) → ch ∈ t)
    {l : List Char} (h : ch ∉ l) : scanAux step 0 l = l := by
  apply scanAux_id
  intro t ht
  rcases hs : step t with _ | ⟨out, k⟩
  · rfl
  · exact absurd (suffixes_subset ht (hstep _ _ _ hs)) h

theorem decodeEntities_id {l : List Char} (h : '&' ∉ l) : decodeEntities l = l :=
  scan_id_of_not_mem (fun _ _ _ hs => entityStep_amp hs) h

theorem stripTagAttributes_id {l : List Char} (h : '<' ∉ l) :
    stripTagAttributes l = l :=
  scan_id_of_not_mem (fun _ _ _ hs => tagStep_lt hs) h

theorem stripImageAlt_id {l : List Char} (h : '[' ∉ l) : stripImageAlt l = l :=
  scan_id_of_not_mem (fun _ _ _ hs => mdImageStep_bracket hs) h

theorem stripLinkTitle_id {l : List Char} (h : '[' ∉ l) : stripLinkTitle l = l :=
  scan_id_of_not_mem (fun _ _ _ hs => mdLinkStep_bracket hs) h

theorem decodeEntities_length (l : List Char) :
    (decodeEntities l).length ≤ l.length := by
  simpa using scanAux_length (fun _ _ _ hs => entityStep_bounds hs) l 0

theorem stripTagAttributes_length (l : List Char) :
    (stripTagAttributes l).length ≤ l.length := by
  simpa using scanAux_length (fun _ _ _ hs => tagStep_bounds hs) l 0

theorem stripImageAlt_length (l : List Char) :
    (stripImageAlt l).length ≤ l.length := by
  simpa using scanAux_length (fun _ _ _ hs => mdImageStep_bounds hs) l 0

theorem stripLinkTitle_length (l : List Char) :
    (stripLinkTitle l).length ≤ l.length := by
  simpa using scanAux_length (fun _ _ _ hs => mdLinkStep_bounds hs) l 0

theorem stripTagAttributes_subset {l : List Char} {c : Char}
    (h : c ∈ stripTagAttributes l) : c ∈ l :=
  scanAux_subset (fun _ _ _ hs => tagStep_subset hs) l 0 c h

theorem stripImageAlt_subset {l : List Char} {c : Char}
    (h : c ∈ stripImageAlt l) : c ∈ l :=
  scanAux_subset (fun _ _ _ hs => mdImageStep_subset hs) l 0 c h

theorem stripLinkTitle_subset {l : List Char} {c : Char}
    (h : c ∈ stripLinkTitle l) : c ∈ l :=
  scanAux_subset (fun _ _ _ hs => mdLinkStep_subset hs) l 0 c h

/-- Every character of the sanitized output already survived the
invisible-character stripping stage. -/
theorem sanitize_mem_stripInvisible {l : List Char} {c : Char}
    (h : c ∈ sanitize l) : c ∈ stripInvisible (decodeEntities l) :=
  stripTagAttributes_subset (stripImageAlt_subset (stripLinkTitle_subset h))

/-- No blocklisted code point survives sanitization. -/
theorem sanitize_no_blocked (l : List Char) {c : Char} (h : c ∈ sanitize l) :
    notBlockedC c = true :=
  (List.mem_filter.mp (sanitize_mem_stripInvisible h)).2

/-- On text free of ampersands, angle brackets and square brackets the
sanitizer reduces to invisible-character stripping. -/
theorem sanitize_eq_stripInvisible {l : List Char}
    (ha : '&' ∉ l) (hl : '<' ∉ l) (hb : '[' ∉ l) :
    sanitize l = stripInvisible l := by
  unfold sanitize
  rw [decodeEntities_id ha]
  have hl2 : '<' ∉ stripInvisible l := fun hm => hl (List.mem_filter.mp hm).1
  have hb2 : '[' ∉ stripInvisible l := fun hm => hb (List.mem_filter.mp hm).1
  rw [stripTagAttributes_id hl2, stripImageAlt_id hb2, stripLinkTitle_id hb2]

/-- On target-free text every stage of the pipeline is the identity. -/
theorem sanitize_id_of_noTargets {l : List Char} (h : noTargets l = true) :
    sanitize l = l := by
  unfold noTargets at h
  simp only [Bool.and_eq_true] at h
  obtain ⟨⟨⟨⟨h1, h2⟩, h3⟩, h4⟩, h5⟩ := h
  unfold sanitize
  have e1 : decodeEntities l = l := scanAux_id (ruleFree_iff.mp h1)
  have e2 : stripInvisible l = l :=
    List.filter_eq_self.mpr (fun a ha => (List.all_eq_true.mp h2) a ha)
  have e3 : stripTagAttributes l = l := scanAux_id (ruleFree_iff.mp h3)
  have e4 : stripImageAlt l = l := scanAux_id (ruleFree_iff.mp h4)
  have e5 : stripLinkTitle l = l := scanAux_id (ruleFree_iff.mp h5)
  rw [e1, e2, e3, e4, e5]

/-- The sanitizer never lengthens its input. -/
theorem sanitize_length_le (l : List Char) : (sanitize l).length ≤ l.length := by
  unfold sanitize
  exact le_trans (stripLinkTitle_length _)
    (le_trans (stripImageAlt_length _)
      (le_trans (stripTagAttributes_length _)
        (le_trans (List.length_filter_le _ _) (decodeEntities_length l))))

/-- Claim C1, counterexample to the entity-form part: on the input
`&#8<U+200B>203;` the sanitizer first decodes nothing (the zero-width
space interrupts the digits), then strips the zero-width space, which
synthesizes the numeric reference `&#8203;` of U+200B in the output, so
the output does contain a numeric-entity-encoded form of a blocklisted
character. -/
theorem claim1_counterexample :
    entityEncodedBlockedPresent (sanitize ("&#8​203;").data) = true ∧
    sanitizeText "&#8​203;" = "&#8203;" :=
  ⟨by decide, by decide⟩

/-- Claim C1 (amended): the sanitized output of any input contains no
literal blocklisted code point (in particular none of U+200B, U+200C,
U+200D, U+00AD, U+202E, U+202D, which are in the blocklist), and the
removal leaves no marker behind: adjacent characters join directly, as on
the spec example.  The original universal absence of entity-encoded forms
is refuted by the counterexample. -/
theorem claim1 :
    (∀ l : List Char, (sanitize l).all notBlockedC = true) ∧
    sanitizeText "Text with hidden​‌‍characters"
      = "Text with hiddencharacters" := by
  constructor
  · intro l
    rw [List.all_eq_true]
    intro c hc
    exact sanitize_no_blocked l hc
  · decide

/-- Claim C2, counterexample: the sanitizer is not idempotent.  On
`&#x20<U+200B>0B;` the first pass only strips the zero-width space and
leaves `&#x200B;`, which a second pass decodes and strips to the empty
string. -/
theorem claim2_counterexample :
    sanitizeText (sanitizeText "&#x20​0B;") ≠ sanitizeText "&#x20​0B;" := by
  decide

/-- Claim C2 (amended): applying the sanitizer twice equals applying it
once for every input that contains no ampersand, no `<` and no `[` (so in
particular whenever only invisible-character stripping can act); full
idempotence fails because stripping can synthesize a new numeric
character reference, as the counterexample shows. -/
theorem claim2 :
    ∀ l : List Char, '&' ∉ l → '<' ∉ l → '[' ∉ l →
      sanitize (sanitize l) = sanitize l := by
  intro l ha hl hb
  rw [sanitize_eq_stripInvisible ha hl hb]
  have ha2 : '&' ∉ stripInvisible l := fun hm => ha (List.mem_filter.mp hm).1
  have hl2 : '<' ∉ stripInvisible l := fun hm => hl (List.mem_filter.mp hm).1
  have hb2 : '[' ∉ stripInvisible l := fun hm => hb (List.mem_filter.mp hm).1
  rw [sanitize_eq_stripInvisible ha2 hl2 hb2]
  exact List.filter_eq_self.mpr (fun a hm => (List.mem_filter.mp hm).2)

/-- Witness for the amended claim C2 at a concrete input containing a
zero-width space. -/
theorem claim2_witness :
    ('&' ∉ ("ab​cd").data ∧ '<' ∉ ("ab​cd").data ∧ '[' ∉ ("ab​cd").data) ∧
      sanitize (sanitize ("ab​cd").data) = sanitize ("ab​cd").data :=
  ⟨⟨by decide, by decide, by decide⟩, claim2 _ (by decide) (by decide) (by decide)⟩

/-- Claim C3, counterexample to the universal absence part: in
`&&#35;8203;` the reference `&#35;` decodes to `#`, which synthesizes the
reference `&#8203;` of U+200B; decoding is single-pass, so the
entity-encoded blocklisted character survives into the output. -/
theorem claim3_counterexample :
    entityEncodedBlockedPresent (sanitize ("&&#35;8203;").data) = true ∧
    sanitizeText "&&#35;8203;" = "&#8203;" :=
  ⟨by decide, by decide⟩

/-- Claim C3 (amended): numeric character references are decoded before
invisible-character stripping, so every blocklisted code point written as
a literal decimal reference sanitizes to the empty string, and the
spec example decodes `&#72;&#69;&#76;&#76;&#79;` to `HELLO` with no
residual `&#72;`.  The universal absence of entity-encoded blocklisted
characters from the output is refuted by the counterexample. -/
theorem claim3 :
    blockedChars.all
      (fun c => (sanitize ('&' :: '#' :: (Nat.toDigits 10 c.toNat ++ [';']))).isEmpty)
      = true ∧
    sanitizeText "Entity-encoded: &#72;&#69;&#76;&#76;&#79;"
      = "Entity-encoded: HELLO" :=
  ⟨by decide, by decide⟩

/-- Claim C4: the three enumerated attribute-stripping examples produce
exactly the stated outputs (img alt removed with src kept, markdown image
alt removed, markdown link title removed with url kept). -/
theorem claim4 :
    sanitizeText "<img alt=\"some alt text\" src=\"image.jpg\">"
      = "<img src=\"image.jpg\">" ∧
    sanitizeText "![image text](screenshot.png)" = "![](screenshot.png)" ∧
    sanitizeText "[Click here](https://example.com \"link title\")"
      = "[Click here](https://example.com)" :=
  ⟨by decide, by decide, by decide⟩

/-- Claim C5: every parsed tag whose (nonempty) attribute list consists
only of blocklisted attributes is emitted with no attribute list at all,
`<name>`; and the empty-value spec example sanitizes as stated. -/
theorem claim5 :
    (∀ (l : List Char) (p : TagParse), parseTag l = some p → p.chunks ≠ [] →
      (∀ ch ∈ p.chunks, blockedAttrName p.name ch.name = true) →
      tagStep l = some (('<' :: p.name) ++ ['>'], l.length - p.rest.length - 1)) ∧
    sanitizeText "<div title=\"\" data-x=\"\">Content</div>" = "<div>Content</div>" := by
  constructor
  · intro l p hp hne hall
    have hkept : p.chunks.filter (fun ch => !(blockedAttrName p.name ch.name)) = [] := by
      rw [List.filter_eq_nil_iff]
      intro ch hch
      simp [hall ch hch]
    simp only [tagStep, hp]
    rw [hkept]
    rw [if_neg (fun hh => hne (List.length_eq_zero.mp hh.symm))]
    simp [chunkTexts]
  · decide

/-- Concrete tag parse used by the witness of claim C5. -/
def tp5 : TagParse :=
  ⟨('a' :: []), [⟨(" title=\"x\"").data, ("title").data⟩], [], []⟩

/-- Witness for claim C5 at the concrete tag `<a title="x">`. -/
theorem claim5_witness :
    tagStep ("<a title=\"x\">").data =
      some (('<' :: tp5.name) ++ ['>'],
        ("<a title=\"x\">").data.length - tp5.rest.length - 1) :=
  claim5.1 _ tp5 (by decide) (by decide) (by decide)

/-- Claim C6: the sanitizer is the identity on every input with no
targeted construct (no numeric reference, no blocklisted code point, no
tag carrying a blocklisted attribute, no markdown image alt or link
title); in particular a tag carrying only non-blocklisted attributes the
sanitizer does not enumerate is emitted byte for byte unchanged. -/
theorem claim6 :
    (∀ l : List Char, noTargets l = true → sanitize l = l) ∧
    sanitizeText "<div class=\"x\" foo=\"y\">hello</div>"
      = "<div class=\"x\" foo=\"y\">hello</div>" := by
  constructor
  · intro l h
    exact sanitize_id_of_noTargets h
  · decide

/-- Witness for claim C6 on a concrete clean input. -/
theorem claim6_witness :
    noTargets ("See the docs.").data = true ∧
      sanitize ("See the docs.").data = ("See the docs.").data :=
  ⟨by decide, claim6.1 _ (by decide)⟩

/-- Claim C7: `formatComments` is total and order-preserving: one
formatted record per comment in the same index order, the empty thread
maps to the empty list, and a comment with an empty body yields a record
whose cleaned body is empty (the record is not omitted). -/
theorem claim7 :
    (∀ cs : List GitHubComment, (formatComments cs).length = cs.length) ∧
    (∀ (cs : List GitHubComment) (i : Nat),
      (formatComments cs)[i]? = (cs[i]?).map formatComment) ∧
    formatComments ([] : List GitHubComment) = [] ∧
    (∀ c : GitHubComment, (formatComment c).body = sanitizeText c.body) ∧
    sanitizeText "" = "" := by
  refine ⟨fun cs => List.length_map _ _, fun cs i => List.getElem?_map _ _ _, rfl,
    fun c => rfl, rfl⟩

/-- Claim C8: sanitization never lengthens its input, on character lists
and on strings. -/
theorem claim8 :
    (∀ l : List Char, (sanitize l).length ≤ l.length) ∧
    (∀ s : String, (sanitizeText s).length ≤ s.length) := by
  exact ⟨sanitize_length_le, fun s => sanitize_length_le s.data⟩

/-- Claim C9: in the allowedBots variant of `checkHumanActor`, a
non-`User` actor passes exactly when the trimmed `allowed_bots` input is
`*` or the lowercased login is among the comma-separated, trimmed,
lowercased, non-empty entries; otherwise it throws; a `User` actor always
passes. -/
theorem claim9 (actorType actor allowedBots : String) :
    (actorType ≠ "User" →
      (checkHumanActor actorType actor allowedBots = Except.ok () ↔
        (strTrim allowedBots = "*" ∨
          (parseAllowedBots allowedBots).contains (strToLower actor) = true))) ∧
    (actorType ≠ "User" →
      ¬(strTrim allowedBots = "*" ∨
          (parseAllowedBots allowedBots).contains (strToLower actor) = true) →
      ∃ msg, checkHumanActor actorType actor allowedBots = Except.error msg) ∧
    (actorType = "User" → checkHumanActor actorType actor allowedBots = Except.ok ()) := by
  refine ⟨?_, ?_, ?_⟩
  · intro hne
    simp only [checkHumanActor, if_pos hne]
    by_cases h1 : strTrim allowedBots = "*"
    · simp [h1]
    · by_cases h2 : (parseAllowedBots allowedBots).contains (strToLower actor) = true
      · simp [h1, h2]
      · simp [h1, h2]
  · intro hne hnot
    push_neg at hnot
    obtain ⟨h1, h2⟩ := hnot
    simp only [checkHumanActor, if_pos hne]
    rw [if_neg h1, if_neg h2]
    exact ⟨_, rfl⟩
  · intro heq
    simp only [checkHumanActor]
    rw [if_neg (by simp [heq])]

/-- Witness for claim C9: a bot whose login matches an allowlist entry up
to case and whitespace passes. -/
theorem claim9_witness :
    checkHumanActor "Bot" "MyBot" " mybot , other" = Except.ok () :=
  ((claim9 "Bot" "MyBot" " mybot , other").1 (by decide)).mpr (Or.inr (by decide))

/-- Claim C10: for an actor whose login does not end in `[bot]`,
`checkWritePermissions` returns `true` exactly when the collaborator
permission lookup reports `admin` or `write`, returns `false` for any
other reported level, and surfaces a lookup failure as a thrown error,
never as a `false` return. -/
theorem claim10 (actor : String) (bot : Except String Unit)
    (perm : Except String String) (h : strEndsWith actor "[bot]" = false) :
    (checkWritePermissions actor bot perm = Except.ok true ↔
      (perm = Except.ok "admin" ∨ perm = Except.ok "write")) ∧
    (∀ lvl, perm = Except.ok lvl → lvl ≠ "admin" → lvl ≠ "write" →
      checkWritePermissions actor bot perm = Except.ok false) ∧
    (∀ e, perm = Except.error e →
      checkWritePermissions actor bot perm =
        Except.error ("Failed to check permissions for " ++ actor ++ ": " ++ e)) := by
  unfold checkWritePermissions
  rw [if_neg (by simp [h])]
  cases perm with
  | error e =>
    dsimp only
    refine ⟨by simp, ?_, ?_⟩
    · intro lvl hh
      simp at hh
    · intro e2 hh
      rw [show e = e2 from (Except.error.inj hh)]
  | ok lvl =>
    dsimp only
    refine ⟨?_, ?_, ?_⟩
    · by_cases hC : lvl = "admin" ∨ lvl = "write"
      · rw [if_pos hC]
        constructor
        · intro _
          rcases hC with hC | hC
          · exact Or.inl (by rw [hC])
          · exact Or.inr (by rw [hC])
        · intro _
          rfl
      · rw [if_neg hC]
        constructor
        · intro hh
          simp at hh
        · intro hh
          rcases hh with hh | hh
          · exact absurd (Or.inl (Except.ok.inj hh)) hC
          · exact absurd (Or.inr (Except.ok.inj hh)) hC
    · intro lvl2 hh hna hnw
      have hl2 : lvl = lvl2 := Except.ok.inj hh
      subst hl2
      rw [if_neg (fun hx => hx.elim hna hnw)]
    · intro e hh
      simp at hh

/-- Witness for claim C10: a regular user with reported level `write` is
granted access. -/
theorem claim10_witness :
    checkWritePermissions "octocat" (Except.ok ()) (Except.ok "write")
      = Except.ok true :=
  (claim10 "octocat" (Except.ok ()) (Except.ok "write") (by decide)).1.mpr
    (Or.inr rfl)

end CCA

